import Mathlib

/-!
# Verification of the `cmdsync` core of oneterminal

This file is a shallow embedding of the `cmdsync` package (the `ShellCmd`
process unit, the `prefixEveryline` output multiplexer, and the `Group`
scheduler of `group.go`) together with proofs and refutations of the
spec's claims about it.

Modelling conventions:
* Go strings are modelled as `List Char`; Go errors as their message strings
  (`GoErr`), with `errors.Wrap`/`fmt.Errorf("%s: %w", ...)` both producing
  `"<msg>: <err>"` (`wrapErr`).
* A compiled `*regexp.Regexp` is modelled as its match predicate
  `List Char → Bool`; a `nil` pattern is `none`.
* `exec.Cmd.Process` is modelled by `process : Option ProcState` (`none`
  until `Start` has succeeded).  The `s.command == nil` guard of
  `ShellCmd.Interrupt` cannot fire for a command built by `NewShellCmd`
  (which always sets `command`), so it collapses into the `process = none`
  guard here.
* The results of the OS (`Start`/`Wait` errors, `syscall.Kill` errors,
  process output chunks) are explicit parameters: the functions are
  deterministic in the OS behaviour.
-/

/-- Go error values, modelled by their message string. -/
abbrev GoErr : Type := List Char

/-- The `%q` verb of `fmt` on a plain name: the name in double quotes. -/
def goQuote (s : List Char) : List Char := '"' :: (s ++ ['"'])

/-- `errors.Wrap(err, msg)` and `fmt.Errorf("%s: %w", msg, err)` both
produce the message `"<msg>: <err>"`. -/
def wrapErr (msg : List Char) (e : GoErr) : GoErr := msg ++ ": ".data ++ e

/-- The message of `errors.Wrap(err, "failed to start command")` in
`ShellCmd.Run`, before the wrapped error is appended. -/
def failedToStartMsg : List Char := "failed to start command".data

/-- `errors.Errorf("%q depends-on %q, but %q does not exist", cmd.name,
depName, depName)` from `checkDependencies`. -/
def missingDepErr (selfName depName : List Char) : GoErr :=
  goQuote selfName ++ " depends-on ".data ++ goQuote depName ++ ", but ".data ++
    goQuote depName ++ " does not exist".data

/-- `errors.Errorf("%s depends on itself", cmd.name)` from `checkDependencies`. -/
def selfDepErr (selfName : List Char) : GoErr := selfName ++ " depends on itself".data

/-- `errors.Wrapf(err, "Error sending interrupt to %s", s.name)` from
`ShellCmd.Interrupt`. -/
def interruptSendErr (name : List Char) (e : GoErr) : GoErr :=
  ("Error sending interrupt to ".data ++ name) ++ ": ".data ++ e

/-- `context.Canceled`, the error a worker returns via `ctx.Err()` when the
shared context is already done. -/
def ctxCanceled : GoErr := "context canceled".data

/-- The state of `exec.Cmd.Process`: present once `Start` succeeded;
`exited` records whether the underlying OS process has terminated. -/
structure ProcState where
  exited : Bool
deriving DecidableEq

/-- The `ShellCmd` struct of the source (`cmdsync`): a wrapper around
`exec.Cmd`.  `process` stands for `command.Process`. -/
structure ShellCmd where
  name : List Char
  ansiColor : List Char
  silenceOutput : Bool
  ready : Bool
  readyPattern : Option (List Char → Bool)
  dependsOn : List (List Char)
  process : Option ProcState

/-- `IsReady` is a simple getter for the ready state of a monitored command. -/
def ShellCmd.IsReady (s : ShellCmd) : Bool := s.ready

/-- `strings.Split(in, "\n")`: split on every newline; always returns at
least one element (the empty input splits to `[[]]`, like Go's `[""]`). -/
def splitOnNl : List Char → List (List Char)
  | [] => [[]]
  | c :: rest =>
    match splitOnNl rest with
    | [] => [[]]
    | hd :: tl => if c = '\n' then [] :: hd :: tl else (c :: hd) :: tl

/-- The line list retained by `prefixEveryline`: drop the final element when
it is empty (`if len(lines) > 0 && lines[len(lines)-1] == ""`). -/
def keptLines (inp : List Char) : List (List Char) :=
  let lines := splitOnNl inp
  if 0 < lines.length ∧ lines.getLast? = some [] then lines.dropLast else lines

/-- `prefix + " | "`, the decoration placed before every line. -/
def labelBar (pfx : List Char) : List Char := pfx ++ [' ', '|', ' ']

/-- `prefixEveryline` of the source: prefix each retained line with
`<prefix> | ` (join with `"\n" + prefix + " | "`) and append one `"\n"`. -/
def prefixEveryline (inp pfx : List Char) : List Char :=
  labelBar pfx ++ List.intercalate ('\n' :: labelBar pfx) (keptLines inp) ++ ['\n']

/-- The reference definition of `PrefixLines(text, label)` taken from the
spec's words: split `text` on `'\n'`; if the final element is empty drop it;
prepend `label | ` to the first element; join the remaining elements with
`'\n'` followed by `label | `; append a single trailing `'\n'`. -/
def specPrefixLines (text label : List Char) : List Char :=
  let segs := splitOnNl text
  let kept := if segs.getLast? = some [] then segs.dropLast else segs
  (label ++ [' ', '|', ' ']) ++
    List.intercalate ('\n' :: (label ++ [' ', '|', ' '])) kept ++ ['\n']

/-- The newline-delimited non-empty segments of a text, as counted by the
spec's sentence about `label | ` occurrences. -/
def nonEmptySegments (text : List Char) : Nat :=
  ((splitOnNl text).filter (fun l => decide (l ≠ []))).length

/-- The ANSI reset code `"\033[0m"` appended after the colorized name. -/
def ansiReset : List Char := [Char.ofNat 27] ++ "[0m".data

/-- `s.readyPattern != nil && s.readyPattern.Match(in)`. -/
def ShellCmd.patternHit (s : ShellCmd) (inp : List Char) : Bool :=
  match s.readyPattern with
  | some r => r inp
  | none => false

/-- What one call of `ShellCmd.Write` did: the bytes it passed to the
shared stdout, the byte count it returned, and the returned error. -/
structure WriteEffect where
  written : List Char
  count : Nat
  err : Option GoErr
deriving DecidableEq

/-- `ShellCmd.Write`: check the ready pattern against this single chunk
first; a silenced command discards the chunk; an unnamed command writes it
raw; otherwise the chunk is prefixed with the colorized name.  The returned
count is `len(in)` on every path.  The shared stdout itself is modelled as
an always-successful writer. -/
def ShellCmd.Write (s : ShellCmd) (inp : List Char) : ShellCmd × WriteEffect :=
  let s1 := if s.patternHit inp then { s with ready := true } else s
  if s.silenceOutput then (s1, ⟨[], inp.length, none⟩)
  else if s.name = [] then (s1, ⟨inp, inp.length, none⟩)
  else (s1, ⟨prefixEveryline inp (s.ansiColor ++ s.name ++ ansiReset), inp.length, none⟩)

/-- `ShellCmd.Run`: start the command (failing with a wrapped error and an
otherwise unchanged state when `Start` errors), then block in `Wait` and
set `ready = true`, returning `Wait`'s error.  `startErr` and `waitErr` are
the OS's answers to `Start` and `Wait`. -/
def ShellCmd.Run (s : ShellCmd) (startErr waitErr : Option GoErr) : ShellCmd × Option GoErr :=
  match startErr with
  | some e => (s, some (wrapErr failedToStartMsg e))
  | none => ({ s with ready := true, process := some { exited := true } }, waitErr)

/-- Whether `ShellCmd.Interrupt` signalled the process group. -/
inductive InterruptAction where
  | noSignal
  | signalledGroup
deriving DecidableEq

/-- `ShellCmd.Interrupt`: when the process has not been started
(`command.Process == nil`) do nothing and return `nil`; otherwise send
`SIGINT` to the process group, wrapping a kill error when the OS reports
one (`killErr`). -/
def ShellCmd.Interrupt (s : ShellCmd) (killErr : Option GoErr) :
    InterruptAction × Option GoErr :=
  match s.process with
  | none => (.noSignal, none)
  | some _ =>
    match killErr with
    | some e => (.signalledGroup, some (interruptSendErr s.name e))
    | none => (.signalledGroup, none)

/-- The loop body of `checkDependencies`, recursing over `cmd.dependsOn` in
list order: a name absent from the map is a missing-dependency error, a name
equal to the command's own is a self-dependency error, a dependency that is
not ready stops the scan with `(false, nil)`. -/
def checkDepsList (selfName : List Char) (allCmdsMap : List Char → Option ShellCmd) :
    List (List Char) → Bool × Option GoErr
  | [] => (true, none)
  | depName :: rest =>
    match allCmdsMap depName with
    | none => (false, some (missingDepErr selfName depName))
    | some depCmd =>
      if selfName = depName then (false, some (selfDepErr selfName))
      else if !depCmd.IsReady then (false, none)
      else checkDepsList selfName allCmdsMap rest

/-- `checkDependencies(cmd, allCmdsMap)` of `group.go`. -/
def checkDependencies (cmd : ShellCmd) (allCmdsMap : List Char → Option ShellCmd) :
    Bool × Option GoErr :=
  checkDepsList cmd.name allCmdsMap cmd.dependsOn

/-- The `namesToCmds` map built at the top of `Group.RunContext`: the Go
`for` loop inserts every command under its name, a later command with the
same name overwriting an earlier one. -/
def namesToCmds : List ShellCmd → (List Char → Option ShellCmd)
  | [] => fun _ => none
  | c :: rest => fun n =>
    match namesToCmds rest n with
    | some d => some d
    | none => if n = c.name then some c else none

lemma namesToCmds_mem {cmds : List ShellCmd} {cmd : ShellCmd} (h : cmd ∈ cmds) :
    ∃ c, namesToCmds cmds cmd.name = some c := by
  induction cmds with
  | nil => cases h
  | cons hd tl ih =>
    rcases List.mem_cons.mp h with rfl | hmem
    · cases hnt : namesToCmds tl cmd.name with
      | none => exact ⟨cmd, by simp [namesToCmds, hnt]⟩
      | some d => exact ⟨d, by simp [namesToCmds, hnt]⟩
    · obtain ⟨c, hc⟩ := ih hmem
      exact ⟨c, by simp [namesToCmds, hc]⟩

/-! ## C1: `Run` and the ready flag -/

/-- A freshly constructed command, as `NewShellCmd` leaves it: not ready,
not started. -/
def sampleCmdA : ShellCmd :=
  { name := "a".data, ansiColor := [], silenceOutput := false, ready := false,
    readyPattern := none, dependsOn := [], process := none }

/-- C1 counterexample: when `Start` itself fails, `Run` returns on the
early path without setting `ready`; the flag stays `false`, refuting the
claim that `Run` sets `ready = true` unconditionally, including the
failed-spawn path. -/
theorem c1_counterexample :
    (ShellCmd.Run sampleCmdA (some "boom".data) none).1.ready = false ∧
    (ShellCmd.Run sampleCmdA (some "boom".data) none).2 =
      some (wrapErr failedToStartMsg "boom".data) := by
  constructor <;> rfl

/-- C1 (amended): when `Start` succeeds, `Run` unconditionally sets
`ready = true` on return — regardless of the wait result (success, non-zero
exit, or interruption) — and returns `Wait`'s error unchanged; but on the
start-failure path `Run` returns a wrapped start error with the command
state (in particular `ready`) unchanged, so dependents without a
ready-pattern would not unblock there. -/
theorem c1_run_ready_amended (s : ShellCmd) (we : Option GoErr) :
    ((ShellCmd.Run s none we).1.ready = true ∧ (ShellCmd.Run s none we).2 = we) ∧
    (∀ e : GoErr, (ShellCmd.Run s (some e) we).1 = s ∧
      (ShellCmd.Run s (some e) we).2 = some (wrapErr failedToStartMsg e)) := by
  refine ⟨⟨rfl, rfl⟩, fun e => ⟨rfl, rfl⟩⟩

/-! ## C5: `Interrupt` -/

/-- A command whose process was started and has already exited. -/
def sampleExitedCmd : ShellCmd :=
  { name := "a".data, ansiColor := [], silenceOutput := false, ready := true,
    readyPattern := none, dependsOn := [], process := some { exited := true } }

/-- C5 counterexample: `Interrupt` checks only `command.Process == nil`;
for a process that was started and has already exited it still sends the
signal to the process group, refuting the claimed "if and only if ... has
not already exited" no-op behaviour. -/
theorem c5_counterexample :
    (ShellCmd.Interrupt sampleExitedCmd none).1 = InterruptAction.signalledGroup ∧
    InterruptAction.signalledGroup ≠ InterruptAction.noSignal := by
  exact ⟨rfl, by decide⟩

/-- C5 (amended): `Interrupt` sends an interrupt signal to the process
group if and only if the process has been started, regardless of whether it
has already exited; before start it is a no-op returning `nil`, idempotent
and safe to call repeatedly. -/
theorem c5_interrupt_amended (s : ShellCmd) (ke : Option GoErr) :
    (s.process = none → ShellCmd.Interrupt s ke = (InterruptAction.noSignal, none)) ∧
    ((ShellCmd.Interrupt s ke).1 = InterruptAction.signalledGroup ↔ s.process ≠ none) := by
  cases hp : s.process with
  | none =>
    refine ⟨fun _ => ?_, ?_⟩
    · simp [ShellCmd.Interrupt, hp]
    · simp [ShellCmd.Interrupt, hp]
  | some p =>
    refine ⟨fun h => by simp [hp] at h, ?_⟩
    cases ke <;> simp [ShellCmd.Interrupt, hp]

/-- C5 witness: the amended theorem applied to a never-started command and
to a started-and-exited one. -/
theorem c5_witness :
    ShellCmd.Interrupt sampleCmdA none = (InterruptAction.noSignal, none) ∧
    ((ShellCmd.Interrupt sampleExitedCmd none).1 = InterruptAction.signalledGroup ↔
      sampleExitedCmd.process ≠ none) :=
  ⟨(c5_interrupt_amended sampleCmdA none).1 rfl,
   (c5_interrupt_amended sampleExitedCmd none).2⟩

/-! ## C8: `Write` -/

/-- C8: `Write` reports the full input length on every path; a silenced
command discards the chunk (no bytes written, `nil` error) while the ready
pattern has already been checked, so the new ready flag is
`old ∨ pattern-hit` exactly as for an unsilenced command. -/
theorem c8_write_contract (s : ShellCmd) (inp : List Char) :
    (ShellCmd.Write s inp).2.count = inp.length ∧
    (s.silenceOutput = true →
      (ShellCmd.Write s inp).2.written = [] ∧ (ShellCmd.Write s inp).2.err = none) ∧
    (ShellCmd.Write s inp).1.ready = (s.ready || s.patternHit inp) := by
  unfold ShellCmd.Write
  cases hhit : s.patternHit inp with
  | true =>
    cases hs : s.silenceOutput with
    | true => simp [hs]
    | false =>
      by_cases hn : s.name = [] <;> simp [hs, hn]
  | false =>
    cases hs : s.silenceOutput with
    | true => simp [hs]
    | false =>
      by_cases hn : s.name = [] <;> simp [hs, hn]

/-- A silenced command with a ready pattern that matches everything. -/
def sampleSilencedCmd : ShellCmd :=
  { name := "b".data, ansiColor := [], silenceOutput := true, ready := false,
    readyPattern := some (fun _ => true), dependsOn := [], process := none }

/-- C8 witness: a silenced command writing a chunk reports the chunk's
length, writes nothing, errs with `nil`, and still becomes ready. -/
theorem c8_witness :
    (ShellCmd.Write sampleSilencedCmd "hi".data).2.count = ("hi".data).length ∧
    (ShellCmd.Write sampleSilencedCmd "hi".data).2.written = [] ∧
    (ShellCmd.Write sampleSilencedCmd "hi".data).2.err = none ∧
    (ShellCmd.Write sampleSilencedCmd "hi".data).1.ready =
      (sampleSilencedCmd.ready || sampleSilencedCmd.patternHit "hi".data) := by
  have h := c8_write_contract sampleSilencedCmd "hi".data
  have h2 := h.2.1 rfl
  exact ⟨h.1, h2.1, h2.2, h.2.2⟩

/-! ## C3: `prefixEveryline` refines the spec's `PrefixLines` -/

lemma splitOnNl_ne_nil (inp : List Char) : splitOnNl inp ≠ [] := by
  cases inp with
  | nil => simp [splitOnNl]
  | cons c rest =>
    simp only [splitOnNl]
    cases h : splitOnNl rest with
    | nil => simp
    | cons hd tl =>
      by_cases hc : c = '\n' <;> simp [hc]

lemma keptLines_eq (inp : List Char) :
    keptLines inp = (if (splitOnNl inp).getLast? = some [] then
      (splitOnNl inp).dropLast else splitOnNl inp) := by
  unfold keptLines
  by_cases h : (splitOnNl inp).getLast? = some []
  · have hne : splitOnNl inp ≠ [] := splitOnNl_ne_nil inp
    have hlen : 0 < (splitOnNl inp).length := List.length_pos.mpr hne
    simp [h, hlen]
  · simp [h]

/-- C3: `prefixEveryline(text, label)` coincides with the reference
definition assembled from the spec's words, and it maps the spec's two
examples as stated: `("hi", "p") ↦ "p | hi\n"` and
`("hello\nasdf", "cmd") ↦ "cmd | hello\ncmd | asdf\n"`. -/
theorem c3_prefixEveryline_refines_spec :
    (∀ text label : List Char, prefixEveryline text label = specPrefixLines text label) ∧
    prefixEveryline "hi".data "p".data = "p | hi\n".data ∧
    prefixEveryline "hello\nasdf".data "cmd".data = "cmd | hello\ncmd | asdf\n".data := by
  refine ⟨fun text label => ?_, by decide, by decide⟩
  simp only [prefixEveryline, specPrefixLines, labelBar, keptLines_eq]

/-! ## C7 / C10: `checkDependencies` error reporting and short-circuit -/

lemma checkDepsList_append_ready (selfName : List Char)
    (allCmdsMap : List Char → Option ShellCmd) (pre rest : List (List Char))
    (hpre : ∀ e ∈ pre, e ≠ selfName ∧
      ∃ c, allCmdsMap e = some c ∧ c.IsReady = true) :
    checkDepsList selfName allCmdsMap (pre ++ rest) =
      checkDepsList selfName allCmdsMap rest := by
  induction pre with
  | nil => rfl
  | cons e pre2 ih =>
    obtain ⟨hne, c, hc, hr⟩ := hpre e (List.mem_cons_self e pre2)
    show (match allCmdsMap e with
      | none => (false, some (missingDepErr selfName e))
      | some depCmd =>
        if selfName = e then (false, some (selfDepErr selfName))
        else if !depCmd.IsReady then (false, none)
        else checkDepsList selfName allCmdsMap (pre2 ++ rest)) = _
    rw [hc]
    simp only [Ne.symm hne, if_false, hr]
    exact ih (fun x hx => hpre x (List.mem_cons_of_mem _ hx))

/-- C7: once every earlier-listed dependency is present, distinct from the
command and ready, a `dependsOn` name absent from the group's map fails the
poll with the missing-dependency error naming both the dependent and the
missing name — wrapped by the worker with the dependent's name — and a
`dependsOn` name equal to the command's own name fails the poll with the
depends-on-itself error (its map lookup succeeds because the command is in
the group). -/
theorem c7_dependency_errors (cmds : List ShellCmd) (cmd : ShellCmd)
    (pre : List (List Char)) (d : List Char) (rest : List (List Char))
    (hmem : cmd ∈ cmds)
    (hdeps : cmd.dependsOn = pre ++ d :: rest)
    (hpre : ∀ e ∈ pre, e ≠ cmd.name ∧
      ∃ c, namesToCmds cmds e = some c ∧ c.IsReady = true) :
    (namesToCmds cmds d = none →
      checkDependencies cmd (namesToCmds cmds) =
        (false, some (missingDepErr cmd.name d)) ∧
      wrapErr cmd.name (missingDepErr cmd.name d) =
        cmd.name ++ ": ".data ++ goQuote cmd.name ++ " depends-on ".data ++
          goQuote d ++ ", but ".data ++ goQuote d ++ " does not exist".data) ∧
    (d = cmd.name →
      checkDependencies cmd (namesToCmds cmds) =
        (false, some (selfDepErr cmd.name))) := by
  have hbase : checkDependencies cmd (namesToCmds cmds) =
      checkDepsList cmd.name (namesToCmds cmds) (d :: rest) := by
    rw [checkDependencies, hdeps]
    exact checkDepsList_append_ready _ _ _ _ hpre
  constructor
  · intro hmiss
    constructor
    · rw [hbase]
      show (match namesToCmds cmds d with
        | none => (false, some (missingDepErr cmd.name d))
        | some depCmd =>
          if cmd.name = d then (false, some (selfDepErr cmd.name))
          else if !depCmd.IsReady then (false, none)
          else checkDepsList cmd.name (namesToCmds cmds) rest) = _
      rw [hmiss]
    · simp [wrapErr, missingDepErr, List.append_assoc]
  · intro hself
    subst hself
    obtain ⟨c, hc⟩ := namesToCmds_mem hmem
    rw [hbase]
    show (match namesToCmds cmds cmd.name with
      | none => (false, some (missingDepErr cmd.name cmd.name))
      | some depCmd =>
        if cmd.name = cmd.name then (false, some (selfDepErr cmd.name))
        else if !depCmd.IsReady then (false, none)
        else checkDepsList cmd.name (namesToCmds cmds) rest) = _
    rw [hc]
    simp

/-- Commands for the concrete dependency-graph witnesses. -/
def sampleReadyDep : ShellCmd :=
  { name := "dep".data, ansiColor := [], silenceOutput := false, ready := true,
    readyPattern := none, dependsOn := [], process := none }

/-- A command depending on a ready command, then on a missing name. -/
def sampleNeedsGhost : ShellCmd :=
  { name := "main".data, ansiColor := [], silenceOutput := false, ready := false,
    readyPattern := none, dependsOn := ["dep".data, "ghost".data], process := none }

/-- C7 witness: in the two-command group, the missing name `"ghost"` after
the ready dependency `"dep"` yields exactly the missing-dependency error. -/
theorem c7_witness :
    checkDependencies sampleNeedsGhost (namesToCmds [sampleReadyDep, sampleNeedsGhost]) =
      (false, some (missingDepErr "main".data "ghost".data)) := by
  have h := c7_dependency_errors [sampleReadyDep, sampleNeedsGhost] sampleNeedsGhost
    ["dep".data] "ghost".data []
    (List.mem_cons_of_mem _ (List.mem_cons_self _ _))
    (by simp [sampleNeedsGhost])
    (by
      intro e he
      simp only [List.mem_singleton] at he
      subst he
      refine ⟨by decide, sampleReadyDep, rfl, rfl⟩)
  exact ((h.1 rfl).1)

/-- C10: `checkDependencies` scans `dependsOn` in list order and returns
`(false, nil)` at the first dependency that is present, not the command
itself, and not yet ready — so a missing or self-referential name later in
the list raises no graph error on that poll; the missing-name error is
reported only once every earlier-listed entry is present, distinct and
ready. -/
theorem c10_check_short_circuit (cmd : ShellCmd)
    (allCmdsMap : List Char → Option ShellCmd)
    (pre : List (List Char)) (d : List Char) (rest : List (List Char))
    (hdeps : cmd.dependsOn = pre ++ d :: rest)
    (hpre : ∀ e ∈ pre, e ≠ cmd.name ∧ ∃ c, allCmdsMap e = some c) :
    ((∃ e ∈ pre, ∀ c, allCmdsMap e = some c → c.IsReady = false) →
      checkDependencies cmd allCmdsMap = (false, none)) ∧
    ((∀ e ∈ pre, ∀ c, allCmdsMap e = some c → c.IsReady = true) →
      allCmdsMap d = none →
      checkDependencies cmd allCmdsMap = (false, some (missingDepErr cmd.name d))) := by
  constructor
  · intro hunready
    rw [checkDependencies, hdeps]
    clear hdeps
    induction pre with
    | nil =>
      obtain ⟨e, he, _⟩ := hunready
      cases he
    | cons e pre2 ih =>
      obtain ⟨hne, c, hc⟩ := hpre e (List.mem_cons_self e pre2)
      show (match allCmdsMap e with
        | none => (false, some (missingDepErr cmd.name e))
        | some depCmd =>
          if cmd.name = e then (false, some (selfDepErr cmd.name))
          else if !depCmd.IsReady then (false, none)
          else checkDepsList cmd.name allCmdsMap (pre2 ++ d :: rest)) = _
      rw [hc]
      simp only [Ne.symm hne, if_false]
      cases hr : c.IsReady with
      | false => simp
      | true =>
        simp only [hr, Bool.not_true, Bool.false_eq_true, if_false]
        obtain ⟨x, hx, hxr⟩ := hunready
        rcases List.mem_cons.mp hx with rfl | hx2
        · exact absurd hr (by simp [hxr c hc])
        · exact ih (fun y hy => hpre y (List.mem_cons_of_mem _ hy)) ⟨x, hx2, hxr⟩
  · intro hready hmiss
    have hbase := checkDepsList_append_ready cmd.name allCmdsMap pre (d :: rest)
      (fun e he => ⟨(hpre e he).1, by
        obtain ⟨c, hc⟩ := (hpre e he).2
        exact ⟨c, hc, hready e he c hc⟩⟩)
    rw [checkDependencies, hdeps, hbase]
    show (match allCmdsMap d with
      | none => (false, some (missingDepErr cmd.name d))
      | some depCmd =>
        if cmd.name = d then (false, some (selfDepErr cmd.name))
        else if !depCmd.IsReady then (false, none)
        else checkDepsList cmd.name allCmdsMap rest) = _
    rw [hmiss]

/-- A not-yet-ready dependency for the C10 witness. -/
def sampleSlowDep : ShellCmd :=
  { name := "slow".data, ansiColor := [], silenceOutput := false, ready := false,
    readyPattern := none, dependsOn := [], process := none }

/-- A command whose `dependsOn` lists a present-but-unready name before a
missing name. -/
def sampleWaitsThenGhost : ShellCmd :=
  { name := "late".data, ansiColor := [], silenceOutput := false, ready := false,
    readyPattern := none, dependsOn := ["slow".data, "ghost".data], process := none }

/-- C10 witness: with `"slow"` present but unready before the missing
`"ghost"`, the poll reports no error at all — `(false, nil)`. -/
theorem c10_witness :
    checkDependencies sampleWaitsThenGhost
      (namesToCmds [sampleSlowDep, sampleWaitsThenGhost]) = (false, none) := by
  have h := c10_check_short_circuit sampleWaitsThenGhost
    (namesToCmds [sampleSlowDep, sampleWaitsThenGhost])
    ["slow".data] "ghost".data []
    (by simp [sampleWaitsThenGhost])
    (by
      intro e he
      simp only [List.mem_singleton] at he
      subst he
      exact ⟨by decide, sampleSlowDep, rfl⟩)
  refine h.1 ⟨"slow".data, by simp, ?_⟩
  intro c hc
  have hcs : c = sampleSlowDep := by
    have h2 := hc.symm.trans
      (rfl : namesToCmds [sampleSlowDep, sampleWaitsThenGhost] "slow".data = some sampleSlowDep)
    exact Option.some.inj h2
  subst hcs
  rfl

/-! ## C4: shape of `prefixEveryline`'s output -/

/-- The number of positions of `s` at which `pat` occurs (starts). -/
def countOcc (pat : List Char) : List Char → Nat
  | [] => 0
  | c :: t => (if pat.isPrefixOf (c :: t) then 1 else 0) + countOcc pat t

/-- One prefixed line of the multiplexed output: `<prefix> | <line>\n`. -/
def lineBlock (pfx l : List Char) : List Char := labelBar pfx ++ l ++ ['\n']

lemma lineBlock_eq (pfx l : List Char) :
    lineBlock pfx l = pfx ++ (' ' :: '|' :: ' ' :: (l ++ ['\n'])) := by
  simp [lineBlock, labelBar]

lemma splitOnNl_no_nl {inp : List Char} {l : List Char} (h : l ∈ splitOnNl inp) :
    '\n' ∉ l := by
  induction inp generalizing l with
  | nil =>
    simp [splitOnNl] at h
    simp [h]
  | cons c rest ih =>
    simp only [splitOnNl] at h
    cases hs : splitOnNl rest with
    | nil => exact absurd hs (splitOnNl_ne_nil rest)
    | cons hd tl =>
      rw [hs] at h
      by_cases hc : c = '\n'
      · simp only [hc, if_true] at h
        rcases List.mem_cons.mp h with rfl | h2
        · simp
        · exact ih (hs ▸ h2)
      · simp only [hc, if_false] at h
        rcases List.mem_cons.mp h with rfl | h2
        · intro hmem
          rcases List.mem_cons.mp hmem with rfl | h3
          · exact hc rfl
          · exact ih (hs ▸ List.mem_cons_self hd tl) h3
        · exact ih (hs ▸ List.mem_cons_of_mem hd h2)

lemma splitOnNl_mem_subset {inp : List Char} {l : List Char} (h : l ∈ splitOnNl inp)
    {c : Char} (hc : c ∈ l) : c ∈ inp := by
  induction inp generalizing l with
  | nil =>
    simp [splitOnNl] at h
    subst h
    cases hc
  | cons a rest ih =>
    simp only [splitOnNl] at h
    cases hs : splitOnNl rest with
    | nil => exact absurd hs (splitOnNl_ne_nil rest)
    | cons hd tl =>
      rw [hs] at h
      by_cases ha : a = '\n'
      · simp only [ha, if_true] at h
        rcases List.mem_cons.mp h with rfl | h2
        · cases hc
        · exact List.mem_cons_of_mem a (ih (hs ▸ h2) hc)
      · simp only [ha, if_false] at h
        rcases List.mem_cons.mp h with rfl | h2
        · rcases List.mem_cons.mp hc with rfl | h3
          · exact List.mem_cons_self c rest
          · exact List.mem_cons_of_mem a (ih (hs ▸ List.mem_cons_self hd tl) h3)
        · exact List.mem_cons_of_mem a (ih (hs ▸ List.mem_cons_of_mem hd h2) hc)

lemma keptLines_subset {inp : List Char} {l : List Char} (h : l ∈ keptLines inp) :
    l ∈ splitOnNl inp := by
  rw [keptLines_eq] at h
  by_cases hc : (splitOnNl inp).getLast? = some []
  · rw [if_pos hc] at h
    exact List.dropLast_subset _ h
  · rwa [if_neg hc] at h

lemma labelBar_getElem_pipe (pfx : List Char) :
    (labelBar pfx)[pfx.length + 1]? = some '|' := by
  rw [labelBar, List.getElem?_append_right (by omega)]
  simp

lemma labelBar_isPrefixOf_pipe {pfx s : List Char}
    (h : (labelBar pfx).isPrefixOf s = true) : s[pfx.length + 1]? = some '|' := by
  obtain ⟨t, rfl⟩ := List.isPrefixOf_iff_prefix.mp h
  have hlt : pfx.length + 1 < (labelBar pfx).length := by simp [labelBar]
  rw [List.getElem?_append_left hlt]
  exact labelBar_getElem_pipe pfx

lemma not_isPrefixOf_of_no_pipe {pfx s : List Char}
    (h : s[pfx.length + 1]? ≠ some '|') : (labelBar pfx).isPrefixOf s = false := by
  cases hb : (labelBar pfx).isPrefixOf s with
  | false => rfl
  | true => exact absurd (labelBar_isPrefixOf_pipe hb) h

lemma lineBlock_pipe {pfx l : List Char} (hp : '|' ∉ pfx) (hl : '|' ∉ l) {m : Nat}
    (h : (lineBlock pfx l)[m]? = some '|') : m = pfx.length + 1 := by
  rw [lineBlock_eq] at h
  by_cases hm : m < pfx.length
  · rw [List.getElem?_append_left hm] at h
    exact absurd (List.getElem?_mem h) hp
  · rw [List.getElem?_append_right (by omega)] at h
    rcases hk : m - pfx.length with _ | k1
    · rw [hk] at h
      simp at h
    · rcases hk2 : k1 with _ | k2
      · omega
      · rw [hk, hk2] at h
        simp only [List.getElem?_cons_succ] at h
        rcases hk3 : k2 with _ | k3
        · rw [hk3] at h
          simp at h
        · rw [hk3] at h
          simp only [List.getElem?_cons_succ] at h
          by_cases hlt : k3 < l.length
          · rw [List.getElem?_append_left hlt] at h
            exact absurd (List.getElem?_mem h) hl
          · rw [List.getElem?_append_right (by omega)] at h
            rcases hd : k3 - l.length with _ | k4
            · rw [hd] at h
              simp at h
            · rw [hd] at h
              simp at h

lemma blocks_early_pipe {pfx : List Char} (hp : '|' ∉ pfx)
    (ls : List (List Char)) {m : Nat} (hm : m ≤ pfx.length) :
    ((ls.map (lineBlock pfx)).flatten)[m]? ≠ some '|' := by
  cases ls with
  | nil => simp
  | cons l t =>
    simp only [List.map_cons, List.flatten_cons]
    rw [List.getElem?_append_left (by simp [lineBlock, labelBar]; omega)]
    rw [lineBlock_eq]
    by_cases hlt : m < pfx.length
    · rw [List.getElem?_append_left hlt]
      intro hmem
      exact hp (List.getElem?_mem hmem)
    · have : m = pfx.length := by omega
      subst this
      rw [List.getElem?_append_right (by omega)]
      simp

lemma countOcc_append (pat a b : List Char) :
    countOcc pat (a ++ b) =
      (List.range a.length).countP (fun j => pat.isPrefixOf ((a ++ b).drop j)) +
        countOcc pat b := by
  induction a with
  | nil => simp [List.countP, List.countP.go]
  | cons c a2 ih =>
    show (if pat.isPrefixOf (c :: (a2 ++ b)) then 1 else 0) + countOcc pat (a2 ++ b) = _
    rw [ih]
    have hr : List.range (a2.length + 1) = 0 :: (List.range a2.length).map Nat.succ :=
      List.range_succ_eq_map a2.length
    simp only [List.length_cons, hr, List.countP_cons, List.countP_map]
    have hcongr : ∀ j ∈ List.range a2.length,
        (((fun j => pat.isPrefixOf (((c :: a2) ++ b).drop j)) ∘ Nat.succ) j = true) ↔
          ((fun j => pat.isPrefixOf ((a2 ++ b).drop j)) j = true) := by
      intro j _
      simp
    rw [List.countP_congr hcongr]
    simp only [List.drop_zero, List.cons_append]
    omega

lemma countP_range_eq_one (n : Nat) (P : Nat → Bool) (hn : 0 < n)
    (h0 : P 0 = true) (hrest : ∀ j, 1 ≤ j → j < n → P j = false) :
    (List.range n).countP P = 1 := by
  induction n with
  | zero => omega
  | succ m ih =>
    rw [List.range_succ, List.countP_append]
    cases Nat.eq_zero_or_pos m with
    | inl hz =>
      subst hz
      simp [List.countP, List.countP.go, h0]
    | inr hpos =>
      rw [ih hpos (fun j h1 h2 => hrest j h1 (by omega))]
      have : P m = false := hrest m (by omega) (by omega)
      simp [List.countP, List.countP.go, this]

lemma countOcc_block {pfx l R : List Char} (hp : '|' ∉ pfx) (hl : '|' ∉ l)
    (hR : ∀ m : Nat, m ≤ pfx.length → R[m]? ≠ some '|') :
    countOcc (labelBar pfx) (lineBlock pfx l ++ R) =
      1 + countOcc (labelBar pfx) R := by
  rw [countOcc_append]
  congr 1
  apply countP_range_eq_one
  · simp [lineBlock, labelBar]
  · simp only [List.drop_zero]
    have : lineBlock pfx l ++ R = labelBar pfx ++ (l ++ ('\n' :: R)) := by
      simp [lineBlock]
    rw [this]
    simp [List.isPrefixOf_iff_prefix]
  · intro j h1 hj
    rw [List.drop_append_of_le_length (by omega)]
    apply not_isPrefixOf_of_no_pipe
    by_cases hcase : pfx.length + 1 < ((lineBlock pfx l).drop j).length
    · rw [List.getElem?_append_left hcase, List.getElem?_drop]
      intro hpipe
      have := lineBlock_pipe hp hl hpipe
      omega
    · rw [List.getElem?_append_right (by omega)]
      have hlen : ((lineBlock pfx l).drop j).length = (lineBlock pfx l).length - j := by
        simp
      apply hR
      omega

lemma countOcc_blocks {pfx : List Char} (hp : '|' ∉ pfx)
    (ls : List (List Char)) (hls : ∀ l ∈ ls, '|' ∉ l) :
    countOcc (labelBar pfx) ((ls.map (lineBlock pfx)).flatten) = ls.length := by
  induction ls with
  | nil => rfl
  | cons l t ih =>
    simp only [List.map_cons, List.flatten_cons]
    rw [countOcc_block hp (hls l (List.mem_cons_self l t))
      (fun m hm => blocks_early_pipe hp t hm)]
    rw [ih (fun x hx => hls x (List.mem_cons_of_mem l hx))]
    simp [Nat.add_comm]

lemma intercalate_blocks (pfx : List Char) (a : List Char) (t : List (List Char)) :
    labelBar pfx ++ List.intercalate ('\n' :: labelBar pfx) (a :: t) ++ ['\n'] =
      (((a :: t).map (lineBlock pfx)).flatten) := by
  induction t generalizing a with
  | nil => simp [List.intercalate, lineBlock]
  | cons b t2 ih =>
    have hstep : List.intercalate ('\n' :: labelBar pfx) (a :: b :: t2) =
        a ++ ('\n' :: labelBar pfx) ++ List.intercalate ('\n' :: labelBar pfx) (b :: t2) := by
      simp [List.intercalate, List.intersperse_cons_cons]
    rw [hstep]
    have := ih b
    simp only [List.map_cons, List.flatten_cons] at this ⊢
    rw [← this]
    simp [lineBlock, List.append_assoc]

lemma prefixEveryline_eq_blocks (inp pfx : List Char) :
    prefixEveryline inp pfx =
      (((if keptLines inp = [] then [[]] else keptLines inp).map (lineBlock pfx)).flatten) := by
  rw [prefixEveryline]
  cases hk : keptLines inp with
  | nil => simp [List.intercalate, lineBlock]
  | cons a t =>
    simp only [if_neg (List.cons_ne_nil a t)]
    exact intercalate_blocks pfx a t

lemma blocks_last (pfx : List Char) {ls : List (List Char)} (hne : ls ≠ [])
    (hnl : ∀ l ∈ ls, '\n' ∉ l) :
    ∃ u, ((ls.map (lineBlock pfx)).flatten) = u ++ ['\n'] ∧ u ≠ [] ∧
      u.getLast? ≠ some '\n' := by
  induction ls with
  | nil => exact absurd rfl hne
  | cons l t ih =>
    cases t with
    | nil =>
      refine ⟨labelBar pfx ++ l, by simp [lineBlock], by simp [labelBar], ?_⟩
      cases hl : l with
      | nil =>
        simp only [List.append_nil]
        rw [labelBar, List.getLast?_append_of_ne_nil pfx (by simp)]
        simp
      | cons c l2 =>
        rw [List.getLast?_append_of_ne_nil (labelBar pfx) (by simp)]
        have hlne : (c :: l2) ≠ ([] : List Char) := List.cons_ne_nil c l2
        rw [List.getLast?_eq_getLast_of_ne_nil hlne]
        intro hcon
        have hmem := List.getLast_mem hlne
        rw [Option.some.inj hcon] at hmem
        exact hnl l (List.mem_cons_self l []) (by rw [hl]; exact hmem)
    | cons b t2 =>
      obtain ⟨u2, hu2, hu2ne, hu2last⟩ := ih (List.cons_ne_nil b t2)
        (fun x hx => hnl x (List.mem_cons_of_mem l hx))
      refine ⟨lineBlock pfx l ++ u2, ?_, by simp [lineBlock, labelBar], ?_⟩
      · simp only [List.map_cons, List.flatten_cons] at hu2 ⊢
        rw [hu2]
        simp [List.append_assoc]
      · rwa [List.getLast?_append_of_ne_nil (lineBlock pfx l) hu2ne]

/-- C4 counterexample: the empty text has zero newline-delimited non-empty
segments, yet `prefixEveryline("", "p")` is `"p | \n"` and contains one
occurrence of `"p | "` — refuting the claimed equality between the number
of `label | ` occurrences and the number of non-empty segments. -/
theorem c4_counterexample :
    countOcc (labelBar "p".data) (prefixEveryline "".data "p".data) = 1 ∧
    nonEmptySegments "".data = 0 ∧ (1 : Nat) ≠ 0 := by
  refine ⟨by decide, by decide, by decide⟩

/-- C4 (amended): for every non-empty label and every text the output of
`prefixEveryline` ends in exactly one `'\n'` (its last character is a
newline not preceded by another newline); and, provided neither the label
nor the text contains `'|'`, the number of occurrences of `label | ` in
the output is `max 1 k`, where `k` is the number of segments of `text`
split on `'\n'` after dropping one trailing empty segment — which differs
from the number of non-empty segments when the text is empty, ends in two
or more newlines, or has interior empty lines. -/
theorem c4_output_shape_amended (label text : List Char) (hne : label ≠ []) :
    (∃ u, prefixEveryline text label = u ++ ['\n'] ∧ u.getLast? ≠ some '\n') ∧
    ('|' ∉ label → '|' ∉ text →
      countOcc (labelBar label) (prefixEveryline text label) =
        max 1 (keptLines text).length) := by
  have hblocks := prefixEveryline_eq_blocks text label
  have hnlkept : ∀ l ∈ (if keptLines text = [] then [[]] else keptLines text),
      '\n' ∉ l := by
    intro l hl
    by_cases hk : keptLines text = []
    · rw [if_pos hk] at hl
      simp at hl
      simp [hl]
    · rw [if_neg hk] at hl
      exact splitOnNl_no_nl (keptLines_subset hl)
  constructor
  · rw [hblocks]
    obtain ⟨u, hu, _, hulast⟩ := blocks_last label
      (by by_cases hk : keptLines text = [] <;> simp [hk]) hnlkept
    exact ⟨u, hu, hulast⟩
  · intro hlp htp
    rw [hblocks]
    rw [countOcc_blocks hlp _ ?_]
    · by_cases hk : keptLines text = []
      · simp [hk]
      · rw [if_neg hk]
        have : 1 ≤ (keptLines text).length := by
          cases hkk : keptLines text with
          | nil => exact absurd hkk hk
          | cons a t => simp
        omega
    · intro l hl hpc
      by_cases hk : keptLines text = []
      · rw [if_pos hk] at hl
        simp at hl
        subst hl
        cases hpc
      · rw [if_neg hk] at hl
        exact htp (splitOnNl_mem_subset (keptLines_subset hl) hpc)

/-- C4 witness: the amended theorem at label `"p"` and text `"hi"`. -/
theorem c4_witness :
    (∃ u, prefixEveryline "hi".data "p".data = u ++ ['\n'] ∧
      u.getLast? ≠ some '\n') ∧
    countOcc (labelBar "p".data) (prefixEveryline "hi".data "p".data) =
      max 1 (keptLines "hi".data).length := by
  have h := c4_output_shape_amended "p".data "hi".data (by decide)
  exact ⟨h.1, h.2 (by decide) (by decide)⟩

/-! ## The `Group.RunContext` scheduler, as a small-step trace model

`Group.RunContext` spawns one `errgroup` worker per command.  Each loop
iteration of a worker is one atomic step here: on a tick the worker first
checks the derived context (exiting with `ctx.Err()` when it is done — the
cancel branch of the `select`), then polls `checkDependencies` against the
`namesToCmds` pointer map (modelled by dereferencing `buildIdx` into the
current unit states), and once the poll succeeds runs `cmd.Run()`.
A running process may write any chunk at any time (`emit`) and exits at
some point with an environment-chosen error (`exitRun`), at which moment
`Run` sets the unit's `ready` flag.  `errgroup` captures the first
non-`nil` worker result (`captured`) and cancels the derived context;
`eg.Wait()` returns `captured` once every worker has returned.  The
supervisory goroutine (`<-ctx.Done(); g.SendInterrupts()`) is the `fanout`
step, enabled once the context is cancelled. -/

/-- The phase of one worker goroutine. -/
inductive WStatus where
  | polling
  | running
  | doneRun
  | exitedEarly
deriving DecidableEq

/-- The zero value used to totalise the index-to-command function. -/
def defaultShellCmd : ShellCmd :=
  { name := [], ansiColor := [], silenceOutput := false, ready := false,
    readyPattern := none, dependsOn := [], process := none }

/-- The shared state of one `Group.RunContext` execution. -/
structure GState where
  cmds : Nat → ShellCmd
  status : Nat → WStatus
  log : List (Nat × List Char)
  results : List (Nat × Option GoErr)
  captured : Option GoErr
  cancelled : Bool
  fanned : Bool

/-- The `namesToCmds` map as a name-to-index table (a Go map of pointers
into `g.commands`, built once before the workers start; a later command
with the same name overwrites an earlier one). -/
def buildIdx : List ShellCmd → (List Char → Option Nat)
  | [] => fun _ => none
  | c :: rest => fun n =>
    match buildIdx rest n with
    | some j => some (j + 1)
    | none => if n = c.name then some 0 else none

/-- Dereferencing the pointer map at poll time: the name index applied to
the current unit states. -/
def snapMap (cmds0 : List ShellCmd) (s : GState) : List Char → Option ShellCmd :=
  fun n => (buildIdx cmds0 n).map s.cmds

/-- The state `RunContext` starts from: every worker polling, nothing
written, no result captured; `cancelled0` is whether the caller's context
is already done. -/
def initState (cmds0 : List ShellCmd) (cancelled0 : Bool) : GState :=
  { cmds := fun i => (cmds0[i]?).getD defaultShellCmd,
    status := fun _ => .polling,
    log := [], results := [], captured := none,
    cancelled := cancelled0, fanned := false }

/-- The first non-`nil` entry of a result list — what `errgroup`'s
`errOnce` retains. -/
def firstErr (l : List (Option GoErr)) : Option GoErr := (l.filterMap id).head?

/-- The value `eg.Wait()` — and hence `RunContext` — returns once every
worker has terminated. -/
def runResult (s : GState) : Option GoErr := s.captured

/-- One atomic scheduler step. -/
inductive GStep (cmds0 : List ShellCmd) : GState → GState → Prop where
  | pollStart (s : GState) (i : Nat) (hi : i < cmds0.length)
      (hst : s.status i = .polling) (hnc : s.cancelled = false)
      (hchk : checkDependencies (s.cmds i) (snapMap cmds0 s) = (true, none)) :
      GStep cmds0 s
        { s with
          status := Function.update s.status i .running,
          cmds := Function.update s.cmds i
            { s.cmds i with process := some { exited := false } } }
  | pollStartFail (s : GState) (i : Nat) (hi : i < cmds0.length)
      (hst : s.status i = .polling) (hnc : s.cancelled = false)
      (hchk : checkDependencies (s.cmds i) (snapMap cmds0 s) = (true, none))
      (e : GoErr) :
      GStep cmds0 s
        { s with
          status := Function.update s.status i .exitedEarly,
          results := s.results ++
            [(i, some (wrapErr (s.cmds i).name (wrapErr failedToStartMsg e)))],
          captured := s.captured.orElse
            (fun _ => some (wrapErr (s.cmds i).name (wrapErr failedToStartMsg e))),
          cancelled := true }
  | pollDepErr (s : GState) (i : Nat) (hi : i < cmds0.length)
      (hst : s.status i = .polling) (hnc : s.cancelled = false)
      (b : Bool) (e : GoErr)
      (hchk : checkDependencies (s.cmds i) (snapMap cmds0 s) = (b, some e)) :
      GStep cmds0 s
        { s with
          status := Function.update s.status i .exitedEarly,
          results := s.results ++ [(i, some (wrapErr (s.cmds i).name e))],
          captured := s.captured.orElse (fun _ => some (wrapErr (s.cmds i).name e)),
          cancelled := true }
  | pollCancel (s : GState) (i : Nat) (hi : i < cmds0.length)
      (hst : s.status i = .polling) (hc : s.cancelled = true) :
      GStep cmds0 s
        { s with
          status := Function.update s.status i .exitedEarly,
          results := s.results ++ [(i, some ctxCanceled)],
          captured := s.captured.orElse (fun _ => some ctxCanceled),
          cancelled := true }
  | emit (s : GState) (i : Nat) (hi : i < cmds0.length)
      (hst : s.status i = .running) (chunk : List Char) :
      GStep cmds0 s
        { s with
          cmds := Function.update s.cmds i (ShellCmd.Write (s.cmds i) chunk).1,
          log := s.log ++ (if (s.cmds i).silenceOutput then []
            else [(i, (ShellCmd.Write (s.cmds i) chunk).2.written)]) }
  | exitRun (s : GState) (i : Nat) (hi : i < cmds0.length)
      (hst : s.status i = .running) (err : Option GoErr) :
      GStep cmds0 s
        { s with
          cmds := Function.update s.cmds i
            { s.cmds i with ready := true, process := some { exited := true } },
          status := Function.update s.status i .doneRun,
          results := s.results ++ [(i, Option.map (wrapErr (s.cmds i).name) err)],
          captured := s.captured.orElse
            (fun _ => Option.map (wrapErr (s.cmds i).name) err),
          cancelled := s.cancelled || err.isSome }
  | fanout (s : GState) (hc : s.cancelled = true) :
      GStep cmds0 s { s with fanned := true }

/-- Reachability by scheduler steps. -/
inductive GReach (cmds0 : List ShellCmd) : GState → GState → Prop where
  | refl (s : GState) : GReach cmds0 s s
  | tail {s t u : GState} : GReach cmds0 s t → GStep cmds0 t u → GReach cmds0 s u

lemma buildIdx_some {cmds0 : List ShellCmd} {n : List Char} {j : Nat}
    (h : buildIdx cmds0 n = some j) : ∃ c, cmds0[j]? = some c ∧ c.name = n := by
  induction cmds0 generalizing j with
  | nil => cases h
  | cons c0 rest ih =>
    simp only [buildIdx] at h
    cases hb : buildIdx rest n with
    | some j2 =>
      rw [hb] at h
      obtain ⟨c, hc, hcn⟩ := ih hb
      exact ⟨c, by simpa [Option.some.inj h.symm] using hc, hcn⟩
    | none =>
      rw [hb] at h
      by_cases hn : n = c0.name
      · rw [if_pos hn] at h
        have hj : j = 0 := (Option.some.inj h).symm
        subst hj
        exact ⟨c0, by simp, hn.symm⟩
      · rw [if_neg hn] at h
        cases h

lemma snapMap_eq_some {cmds0 : List ShellCmd} {s : GState} {n : List Char}
    {c : ShellCmd} (h : snapMap cmds0 s n = some c) :
    ∃ j, buildIdx cmds0 n = some j ∧ c = s.cmds j := by
  unfold snapMap at h
  cases hb : buildIdx cmds0 n with
  | none => rw [hb] at h; cases h
  | some j =>
    rw [hb] at h
    exact ⟨j, rfl, (Option.some.inj h).symm⟩

lemma checkDepsList_success {selfName : List Char}
    {allCmdsMap : List Char → Option ShellCmd} {deps : List (List Char)}
    (h : checkDepsList selfName allCmdsMap deps = (true, none)) :
    ∀ d ∈ deps, selfName ≠ d ∧ ∃ c, allCmdsMap d = some c ∧ c.IsReady = true := by
  induction deps with
  | nil => intro d hd; cases hd
  | cons d0 rest ih =>
    intro d hd
    have h2 : (match allCmdsMap d0 with
       | none => ((false : Bool), some (missingDepErr selfName d0))
       | some depCmd =>
         if selfName = d0 then (false, some (selfDepErr selfName))
         else if !depCmd.IsReady then (false, none)
         else checkDepsList selfName allCmdsMap rest) = (true, none) := h
    cases hm : allCmdsMap d0 with
    | none =>
      rw [hm] at h2
      simp at h2
    | some c0 =>
      rw [hm] at h2
      have h3 : (if selfName = d0 then ((false : Bool), some (selfDepErr selfName))
         else if !c0.IsReady then (false, none)
         else checkDepsList selfName allCmdsMap rest) = (true, none) := h2
      by_cases hself : selfName = d0
      · rw [if_pos hself] at h3
        simp at h3
      · rw [if_neg hself] at h3
        cases hr : c0.IsReady with
        | false =>
          rw [hr] at h3
          simp at h3
        | true =>
          rw [hr] at h3
          simp only [Bool.not_true, Bool.false_eq_true, if_false] at h3
          rcases List.mem_cons.mp hd with rfl | hd2
          · exact ⟨hself, c0, hm, hr⟩
          · exact ih h3 d hd2

lemma write_fst_name (c : ShellCmd) (chunk : List Char) :
    (ShellCmd.Write c chunk).1.name = c.name := by
  unfold ShellCmd.Write
  by_cases h1 : c.patternHit chunk <;> by_cases h2 : c.silenceOutput <;>
    by_cases h3 : c.name = [] <;> simp [h1, h2, h3]

lemma write_fst_dependsOn (c : ShellCmd) (chunk : List Char) :
    (ShellCmd.Write c chunk).1.dependsOn = c.dependsOn := by
  unfold ShellCmd.Write
  by_cases h1 : c.patternHit chunk <;> by_cases h2 : c.silenceOutput <;>
    by_cases h3 : c.name = [] <;> simp [h1, h2, h3]

lemma write_fst_readyPattern (c : ShellCmd) (chunk : List Char) :
    (ShellCmd.Write c chunk).1.readyPattern = c.readyPattern := by
  unfold ShellCmd.Write
  by_cases h1 : c.patternHit chunk <;> by_cases h2 : c.silenceOutput <;>
    by_cases h3 : c.name = [] <;> simp [h1, h2, h3]

lemma write_fst_silence (c : ShellCmd) (chunk : List Char) :
    (ShellCmd.Write c chunk).1.silenceOutput = c.silenceOutput := by
  unfold ShellCmd.Write
  by_cases h1 : c.patternHit chunk <;> by_cases h2 : c.silenceOutput <;>
    by_cases h3 : c.name = [] <;> simp [h1, h2, h3]

lemma write_fst_ready (c : ShellCmd) (chunk : List Char) :
    (ShellCmd.Write c chunk).1.ready = (c.ready || c.patternHit chunk) := by
  unfold ShellCmd.Write
  by_cases h1 : c.patternHit chunk <;> by_cases h2 : c.silenceOutput <;>
    by_cases h3 : c.name = [] <;> simp [h1, h2, h3]

lemma firstErr_append_one (l : List (Option GoErr)) (x : Option GoErr) :
    firstErr (l ++ [x]) = (firstErr l).orElse (fun _ => x) := by
  unfold firstErr
  rw [List.filterMap_append]
  cases hf : l.filterMap id with
  | nil =>
    simp only [List.nil_append]
    cases x <;> simp [List.filterMap, Option.orElse]
  | cons a t => simp [Option.orElse]

lemma getElem?_some_lt {α : Type} {l : List α} {n : Nat} {a : α}
    (h : l[n]? = some a) : n < l.length := by
  by_contra hn
  rw [List.getElem?_eq_none (by omega)] at h
  cases h

/-! ### Invariants of the scheduler -/

/-- The configuration fields of a unit are never mutated: the scheduler
only touches `ready` and `process`. -/
def InvFields (cmds0 : List ShellCmd) (s : GState) : Prop :=
  ∀ i c, cmds0[i]? = some c →
    (s.cmds i).name = c.name ∧ (s.cmds i).dependsOn = c.dependsOn ∧
    (s.cmds i).readyPattern = c.readyPattern ∧
    (s.cmds i).silenceOutput = c.silenceOutput

/-- A started worker's dependencies all resolve in the index, are not the
worker itself, and their units are ready. -/
def InvStart (cmds0 : List ShellCmd) (s : GState) : Prop :=
  ∀ i ci, cmds0[i]? = some ci →
    (s.status i = .running ∨ s.status i = .doneRun) →
    ∀ d ∈ ci.dependsOn, ∃ j, buildIdx cmds0 d = some j ∧ j ≠ i ∧
      (s.cmds j).ready = true

/-- Without ready-patterns (and with fresh units), readiness coincides with
run completion. -/
def InvNoPat (cmds0 : List ShellCmd) (s : GState) : Prop :=
  (∀ c ∈ cmds0, c.readyPattern = none) → (∀ c ∈ cmds0, c.ready = false) →
  ∀ j c, cmds0[j]? = some c → (s.cmds j).ready = true → s.status j = .doneRun

/-- Every line in the shared log was written by a worker that started. -/
def InvLog (cmds0 : List ShellCmd) (s : GState) : Prop :=
  ∀ (p : Nat) (e : Nat × List Char), s.log[p]? = some e →
    e.1 < cmds0.length ∧ (s.status e.1 = .running ∨ s.status e.1 = .doneRun)

/-- The dependency-ordering invariant: without ready-patterns, every log
line of a dependency precedes every log line of its dependent. -/
def InvOrd (cmds0 : List ShellCmd) (s : GState) : Prop :=
  (∀ c ∈ cmds0, c.readyPattern = none) → (∀ c ∈ cmds0, c.ready = false) →
  ∀ (i : Nat) (ci : ShellCmd), cmds0[i]? = some ci → ∀ d ∈ ci.dependsOn,
  ∀ j, buildIdx cmds0 d = some j →
  ∀ (p q : Nat) (ea eb : Nat × List Char), s.log[p]? = some ea → s.log[q]? = some eb →
    ea.1 = i → eb.1 = j → q < p

/-- `errgroup`'s captured error is the first non-`nil` worker result. -/
def InvCap (s : GState) : Prop := s.captured = firstErr (s.results.map Prod.snd)

/-- While the derived context is not cancelled, no worker has returned a
non-`nil` error. -/
def InvCancel (s : GState) : Prop :=
  s.cancelled = false → ∀ r ∈ s.results, r.2 = none

lemma getElem?_append_singleton {α : Type} {l : List α} {x a : α} {p : Nat}
    (h : (l ++ [x])[p]? = some a) : l[p]? = some a ∨ (p = l.length ∧ a = x) := by
  by_cases hp : p < l.length
  · rw [List.getElem?_append_left hp] at h
    exact Or.inl h
  · right
    rw [List.getElem?_append_right (by omega)] at h
    rcases hk : p - l.length with _ | k
    · rw [hk] at h
      simp at h
      exact ⟨by omega, h.symm⟩
    · rw [hk] at h
      simp at h

lemma step_fields {cmds0 : List ShellCmd} {s t : GState} (hstep : GStep cmds0 s t)
    (hF : InvFields cmds0 s) : InvFields cmds0 t := by
  cases hstep with
  | pollStart i hi hst hnc hchk =>
    intro k c hc
    dsimp only
    by_cases hk : k = i
    · subst hk
      rw [Function.update_same]
      exact hF k c hc
    · rw [Function.update_noteq hk]
      exact hF k c hc
  | pollStartFail i hi hst hnc hchk e => exact hF
  | pollDepErr i hi hst hnc b e hchk => exact hF
  | pollCancel i hi hst hc => exact hF
  | emit i hi hst chunk =>
    intro k c hc
    dsimp only
    by_cases hk : k = i
    · subst hk
      rw [Function.update_same, write_fst_name, write_fst_dependsOn,
        write_fst_readyPattern, write_fst_silence]
      exact hF k c hc
    · rw [Function.update_noteq hk]
      exact hF k c hc
  | exitRun i hi hst err =>
    intro k c hc
    dsimp only
    by_cases hk : k = i
    · subst hk
      rw [Function.update_same]
      exact hF k c hc
    · rw [Function.update_noteq hk]
      exact hF k c hc
  | fanout hc => exact hF

lemma step_cap {cmds0 : List ShellCmd} {s t : GState} (hstep : GStep cmds0 s t)
    (hC : InvCap s) : InvCap t := by
  cases hstep with
  | pollStart i hi hst hnc hchk => exact hC
  | pollStartFail i hi hst hnc hchk e =>
    show s.captured.orElse _ = _
    dsimp only
    simp only [List.map_append, List.map_cons, List.map_nil]
    rw [firstErr_append_one, ← hC]
  | pollDepErr i hi hst hnc b e hchk =>
    show s.captured.orElse _ = _
    dsimp only
    simp only [List.map_append, List.map_cons, List.map_nil]
    rw [firstErr_append_one, ← hC]
  | pollCancel i hi hst hc =>
    show s.captured.orElse _ = _
    dsimp only
    simp only [List.map_append, List.map_cons, List.map_nil]
    rw [firstErr_append_one, ← hC]
  | emit i hi hst chunk => exact hC
  | exitRun i hi hst err =>
    show s.captured.orElse _ = _
    dsimp only
    simp only [List.map_append, List.map_cons, List.map_nil]
    rw [firstErr_append_one, ← hC]
  | fanout hc => exact hC

lemma step_cancel {cmds0 : List ShellCmd} {s t : GState} (hstep : GStep cmds0 s t)
    (hX : InvCancel s) : InvCancel t := by
  cases hstep with
  | pollStart i hi hst hnc hchk => exact hX
  | pollStartFail i hi hst hnc hchk e =>
    intro h
    simp only [] at h
    cases h
  | pollDepErr i hi hst hnc b e hchk =>
    intro h
    simp only [] at h
    cases h
  | pollCancel i hi hst hc =>
    intro h
    simp only [] at h
    cases h
  | emit i hi hst chunk => exact hX
  | exitRun i hi hst err =>
    intro h r hr
    dsimp only at h hr
    have h2 : s.cancelled = false ∧ err.isSome = false := by
      constructor
      · cases hcb : s.cancelled
        · rfl
        · rw [hcb] at h
          simp at h
      · cases hcb : err.isSome
        · rfl
        · rw [hcb] at h
          simp at h
    rcases List.mem_append.mp hr with hr1 | hr2
    · exact hX h2.1 r hr1
    · simp only [List.mem_singleton] at hr2
      subst hr2
      cases err with
      | none => rfl
      | some e => simp at h2
  | fanout hc => exact hX

lemma step_log {cmds0 : List ShellCmd} {s t : GState} (hstep : GStep cmds0 s t)
    (hL : InvLog cmds0 s) : InvLog cmds0 t := by
  cases hstep with
  | pollStart i hi hst hnc hchk =>
    intro p e he
    dsimp only at he ⊢
    obtain ⟨hb, hrd⟩ := hL p e he
    refine ⟨hb, ?_⟩
    by_cases hk : e.1 = i
    · rw [hk, hst] at hrd
      rcases hrd with h | h <;> exact WStatus.noConfusion h
    · rw [Function.update_noteq hk]
      exact hrd
  | pollStartFail i hi hst hnc hchk e =>
    intro p en he
    dsimp only at he ⊢
    obtain ⟨hb, hrd⟩ := hL p en he
    refine ⟨hb, ?_⟩
    by_cases hk : en.1 = i
    · rw [hk, hst] at hrd
      rcases hrd with h | h <;> exact WStatus.noConfusion h
    · rw [Function.update_noteq hk]
      exact hrd
  | pollDepErr i hi hst hnc b e hchk =>
    intro p en he
    dsimp only at he ⊢
    obtain ⟨hb, hrd⟩ := hL p en he
    refine ⟨hb, ?_⟩
    by_cases hk : en.1 = i
    · rw [hk, hst] at hrd
      rcases hrd with h | h <;> exact WStatus.noConfusion h
    · rw [Function.update_noteq hk]
      exact hrd
  | pollCancel i hi hst hc =>
    intro p en he
    dsimp only at he ⊢
    obtain ⟨hb, hrd⟩ := hL p en he
    refine ⟨hb, ?_⟩
    by_cases hk : en.1 = i
    · rw [hk, hst] at hrd
      rcases hrd with h | h <;> exact WStatus.noConfusion h
    · rw [Function.update_noteq hk]
      exact hrd
  | emit i hi hst chunk =>
    intro p e he
    dsimp only at he ⊢
    by_cases hsil : (s.cmds i).silenceOutput
    · rw [if_pos hsil, List.append_nil] at he
      exact hL p e he
    · rw [if_neg hsil] at he
      rcases getElem?_append_singleton he with hold | ⟨hp, he2⟩
      · exact hL p e hold
      · subst he2
        exact ⟨hi, Or.inl hst⟩
  | exitRun i hi hst err =>
    intro p e he
    dsimp only at he ⊢
    obtain ⟨hb, hrd⟩ := hL p e he
    refine ⟨hb, ?_⟩
    by_cases hk : e.1 = i
    · rw [hk]
      rw [Function.update_same]
      exact Or.inr rfl
    · rw [Function.update_noteq hk]
      exact hrd
  | fanout hc => exact hL

lemma step_start {cmds0 : List ShellCmd} {s t : GState} (hstep : GStep cmds0 s t)
    (hF : InvFields cmds0 s) (hS : InvStart cmds0 s) : InvStart cmds0 t := by
  cases hstep with
  | pollStart i hi hst hnc hchk =>
    have hready : ∀ j, (Function.update s.cmds i
        { s.cmds i with process := some { exited := false } } j).ready =
          (s.cmds j).ready := by
      intro j
      by_cases hj : j = i
      · subst hj
        rw [Function.update_same]
      · rw [Function.update_noteq hj]
    intro k ck hck hstk
    dsimp only at hstk ⊢
    by_cases hk : k = i
    · subst hk
      intro d hd
      have hdeps : (s.cmds k).dependsOn = ck.dependsOn := (hF k ck hck).2.1
      have hd2 : d ∈ (s.cmds k).dependsOn := by
        rw [hdeps]
        exact hd
      obtain ⟨hname, c, hsnap, hcr⟩ := checkDepsList_success hchk d hd2
      obtain ⟨j, hbij, hcj⟩ := snapMap_eq_some hsnap
      refine ⟨j, hbij, ?_, ?_⟩
      · intro hjk
        subst hjk
        obtain ⟨cj, hcj0, hcjn⟩ := buildIdx_some hbij
        rw [hck] at hcj0
        have hcjeq : ck = cj := Option.some.inj hcj0
        apply hname
        rw [(hF j ck hck).1, hcjeq]
        exact hcjn
      · rw [hready]
        rw [← hcj]
        exact hcr
    · rw [Function.update_noteq hk] at hstk
      intro d hd
      obtain ⟨j, hbij, hji, hrd⟩ := hS k ck hck hstk d hd
      refine ⟨j, hbij, hji, ?_⟩
      rw [hready]
      exact hrd
  | pollStartFail i hi hst hnc hchk e =>
    intro k ck hck hstk
    dsimp only at hstk ⊢
    by_cases hk : k = i
    · subst hk
      rw [Function.update_same] at hstk
      rcases hstk with h | h <;> exact WStatus.noConfusion h
    · rw [Function.update_noteq hk] at hstk
      exact hS k ck hck hstk
  | pollDepErr i hi hst hnc b e hchk =>
    intro k ck hck hstk
    dsimp only at hstk ⊢
    by_cases hk : k = i
    · subst hk
      rw [Function.update_same] at hstk
      rcases hstk with h | h <;> exact WStatus.noConfusion h
    · rw [Function.update_noteq hk] at hstk
      exact hS k ck hck hstk
  | pollCancel i hi hst hc =>
    intro k ck hck hstk
    dsimp only at hstk ⊢
    by_cases hk : k = i
    · subst hk
      rw [Function.update_same] at hstk
      rcases hstk with h | h <;> exact WStatus.noConfusion h
    · rw [Function.update_noteq hk] at hstk
      exact hS k ck hck hstk
  | emit i hi hst chunk =>
    have hmono : ∀ j, (s.cmds j).ready = true →
        (Function.update s.cmds i (ShellCmd.Write (s.cmds i) chunk).1 j).ready = true := by
      intro j hj
      by_cases hji : j = i
      · subst hji
        rw [Function.update_same, write_fst_ready, hj]
        rfl
      · rw [Function.update_noteq hji]
        exact hj
    intro k ck hck hstk
    dsimp only at hstk ⊢
    intro d hd
    obtain ⟨j, hbij, hji, hrd⟩ := hS k ck hck hstk d hd
    exact ⟨j, hbij, hji, hmono j hrd⟩
  | exitRun i hi hst err =>
    have hmono : ∀ j, (s.cmds j).ready = true →
        (Function.update s.cmds i
          { s.cmds i with ready := true, process := some { exited := true } } j).ready
          = true := by
      intro j hj
      by_cases hji : j = i
      · subst hji
        rw [Function.update_same]
      · rw [Function.update_noteq hji]
        exact hj
    intro k ck hck hstk
    dsimp only at hstk ⊢
    by_cases hk : k = i
    · subst hk
      have hstk2 : s.status k = .running ∨ s.status k = .doneRun := Or.inl hst
      intro d hd
      obtain ⟨j, hbij, hji, hrd⟩ := hS k ck hck hstk2 d hd
      exact ⟨j, hbij, hji, hmono j hrd⟩
    · rw [Function.update_noteq hk] at hstk
      intro d hd
      obtain ⟨j, hbij, hji, hrd⟩ := hS k ck hck hstk d hd
      exact ⟨j, hbij, hji, hmono j hrd⟩
  | fanout hc => exact hS

lemma step_nopat {cmds0 : List ShellCmd} {s t : GState} (hstep : GStep cmds0 s t)
    (hF : InvFields cmds0 s) (hN : InvNoPat cmds0 s) : InvNoPat cmds0 t := by
  cases hstep with
  | pollStart i hi hst hnc hchk =>
    intro hnp h0 j c hc hr
    dsimp only at hr ⊢
    have hr2 : (s.cmds j).ready = true := by
      by_cases hj : j = i
      · subst hj
        rw [Function.update_same] at hr
        exact hr
      · rw [Function.update_noteq hj] at hr
        exact hr
    have hdone := hN hnp h0 j c hc hr2
    by_cases hj : j = i
    · subst hj
      rw [hst] at hdone
      exact WStatus.noConfusion hdone
    · rw [Function.update_noteq hj]
      exact hdone
  | pollStartFail i hi hst hnc hchk e =>
    intro hnp h0 j c hc hr
    dsimp only at hr ⊢
    have hdone := hN hnp h0 j c hc hr
    by_cases hj : j = i
    · subst hj
      rw [hst] at hdone
      exact WStatus.noConfusion hdone
    · rw [Function.update_noteq hj]
      exact hdone
  | pollDepErr i hi hst hnc b e hchk =>
    intro hnp h0 j c hc hr
    dsimp only at hr ⊢
    have hdone := hN hnp h0 j c hc hr
    by_cases hj : j = i
    · subst hj
      rw [hst] at hdone
      exact WStatus.noConfusion hdone
    · rw [Function.update_noteq hj]
      exact hdone
  | pollCancel i hi hst hc =>
    intro hnp h0 j c hc2 hr
    dsimp only at hr ⊢
    have hdone := hN hnp h0 j c hc2 hr
    by_cases hj : j = i
    · subst hj
      rw [hst] at hdone
      exact WStatus.noConfusion hdone
    · rw [Function.update_noteq hj]
      exact hdone
  | emit i hi hst chunk =>
    intro hnp h0 j c hc hr
    dsimp only at hr ⊢
    have hr2 : (s.cmds j).ready = true := by
      by_cases hj : j = i
      · subst hj
        rw [Function.update_same, write_fst_ready] at hr
        have hpat : (s.cmds j).readyPattern = none := by
          rw [(hF j c hc).2.2.1]
          exact hnp c (List.getElem?_mem hc)
        have hph : (s.cmds j).patternHit chunk = false := by
          unfold ShellCmd.patternHit
          rw [hpat]
        rw [hph, Bool.or_false] at hr
        exact hr
      · rw [Function.update_noteq hj] at hr
        exact hr
    exact hN hnp h0 j c hc hr2
  | exitRun i hi hst err =>
    intro hnp h0 j c hc hr
    dsimp only at hr ⊢
    by_cases hj : j = i
    · subst hj
      rw [Function.update_same]
    · rw [Function.update_noteq hj] at hr ⊢
      exact hN hnp h0 j c hc hr
  | fanout hc => exact hN

lemma step_ord {cmds0 : List ShellCmd} {s t : GState} (hstep : GStep cmds0 s t)
    (hF : InvFields cmds0 s) (hS : InvStart cmds0 s) (hN : InvNoPat cmds0 s)
    (hL : InvLog cmds0 s) (hO : InvOrd cmds0 s) : InvOrd cmds0 t := by
  cases hstep with
  | pollStart i hi hst hnc hchk => exact hO
  | pollStartFail i hi hst hnc hchk e => exact hO
  | pollDepErr i hi hst hnc b e hchk => exact hO
  | pollCancel i hi hst hc => exact hO
  | exitRun i hi hst err => exact hO
  | fanout hc => exact hO
  | emit i hi hst chunk =>
    intro hnp h0 i2 ci2 hci2 d hd j hj p q ea eb hea heb heai hebj
    dsimp only at hea heb
    by_cases hsil : (s.cmds i).silenceOutput
    · rw [if_pos hsil, List.append_nil] at hea heb
      exact hO hnp h0 i2 ci2 hci2 d hd j hj p q ea eb hea heb heai hebj
    · rw [if_neg hsil] at hea heb
      rcases getElem?_append_singleton hea with hpa | ⟨hpl, hae⟩
      · rcases getElem?_append_singleton heb with hqb | ⟨hql, hbe⟩
        · exact hO hnp h0 i2 ci2 hci2 d hd j hj p q ea eb hpa hqb heai hebj
        · exfalso
          obtain ⟨hb2, hrd2⟩ := hL p ea hpa
          rw [heai] at hrd2
          obtain ⟨j', hbij', hji', hrd'⟩ := hS i2 ci2 hci2 hrd2 d hd
          have hjj : j' = j := by
            rw [hj] at hbij'
            exact (Option.some.inj hbij').symm
          subst hjj
          obtain ⟨cj, hcj0, _⟩ := buildIdx_some hj
          have hdone := hN hnp h0 j' cj hcj0 hrd'
          have hji2 : eb.1 = i := by
            rw [hbe]
          have hji3 : j' = i := by
            rw [← hebj, hji2]
          rw [hji3, hst] at hdone
          exact WStatus.noConfusion hdone
      · rcases getElem?_append_singleton heb with hqb | ⟨hql, hbe⟩
        · have hq := getElem?_some_lt hqb
          omega
        · exfalso
          have hi2 : i2 = i := by
            rw [← heai, hae]
          have hji2 : j = i := by
            rw [← hebj, hbe]
          have hrd2 : s.status i2 = .running ∨ s.status i2 = .doneRun := by
            rw [hi2]
            exact Or.inl hst
          obtain ⟨j', hbij', hji', _⟩ := hS i2 ci2 hci2 hrd2 d hd
          have hjj : j' = j := by
            rw [hj] at hbij'
            exact (Option.some.inj hbij').symm
          apply hji'
          rw [hjj, hji2, hi2]

/-- All scheduler invariants, bundled. -/
def InvAll (cmds0 : List ShellCmd) (s : GState) : Prop :=
  InvFields cmds0 s ∧ InvStart cmds0 s ∧ InvNoPat cmds0 s ∧ InvLog cmds0 s ∧
    InvOrd cmds0 s ∧ InvCap s ∧ InvCancel s

lemma inv_init (cmds0 : List ShellCmd) (c0 : Bool) : InvAll cmds0 (initState cmds0 c0) := by
  refine ⟨?_, ?_, ?_, ?_, ?_, ?_, ?_⟩
  · intro i c hc
    have hcp : (initState cmds0 c0).cmds i = c := by
      show (cmds0[i]?).getD defaultShellCmd = c
      rw [hc]
      rfl
    rw [hcp]
    exact ⟨rfl, rfl, rfl, rfl⟩
  · intro i ci hci hst
    rcases hst with h | h <;> exact WStatus.noConfusion h
  · intro hnp h0 j c hc hr
    exfalso
    have hcj : (initState cmds0 c0).cmds j = c := by
      show (cmds0[j]?).getD defaultShellCmd = c
      rw [hc]
      rfl
    rw [hcj, h0 c (List.getElem?_mem hc)] at hr
    exact Bool.noConfusion hr
  · intro p e he
    exact absurd he (by simp [initState])
  · intro _ _ i ci hci d hd j hj p q ea eb hea heb _ _
    exact absurd hea (by simp [initState])
  · rfl
  · intro _ r hr
    exact absurd hr (by simp [initState])

lemma inv_step {cmds0 : List ShellCmd} {s t : GState} (hstep : GStep cmds0 s t)
    (h : InvAll cmds0 s) : InvAll cmds0 t := by
  obtain ⟨hF, hS, hN, hL, hO, hC, hX⟩ := h
  exact ⟨step_fields hstep hF, step_start hstep hF hS, step_nopat hstep hF hN,
    step_log hstep hL, step_ord hstep hF hS hN hL hO, step_cap hstep hC,
    step_cancel hstep hX⟩

lemma reach_inv_of {cmds0 : List ShellCmd} {s0 s : GState}
    (h : GReach cmds0 s0 s) (h0 : InvAll cmds0 s0) : InvAll cmds0 s := by
  induction h with
  | refl => exact h0
  | tail hr hst ih => exact inv_step hst ih

lemma reach_inv {cmds0 : List ShellCmd} {c0 : Bool} {s : GState}
    (h : GReach cmds0 (initState cmds0 c0) s) : InvAll cmds0 s :=
  reach_inv_of h (inv_init cmds0 c0)

/-- `Group.SendInterrupts`: relay an interrupt to every underlying command
(the supervisory goroutine's fan-out once the context is done). -/
def sendInterrupts (cmds0 : List ShellCmd) (s : GState) :
    List (InterruptAction × Option GoErr) :=
  (List.range cmds0.length).map (fun i => ShellCmd.Interrupt (s.cmds i) none)

/-! ### C2: dependency ordering -/

/-- C2: in every reachable state of a run, a command whose `dependsOn`
lists a name resolving (via the group's index) to unit `j` is running or
finished only if unit `j`'s ready flag is true — it is never started
before the dependency's readiness is observed; and when no command uses a
ready-pattern or silencing and all units start un-ready, every line unit
`j` contributed to the shared output stream precedes every line its
dependent contributed. -/
theorem c2_dependency_ordering (cmds0 : List ShellCmd) (s : GState)
    (hreach : GReach cmds0 (initState cmds0 false) s)
    (i : Nat) (ci : ShellCmd) (hci : cmds0[i]? = some ci)
    (d : List Char) (hd : d ∈ ci.dependsOn)
    (j : Nat) (hj : buildIdx cmds0 d = some j) :
    ((s.status i = .running ∨ s.status i = .doneRun) → (s.cmds j).ready = true) ∧
    ((∀ c ∈ cmds0, c.readyPattern = none) → (∀ c ∈ cmds0, c.silenceOutput = false) →
     (∀ c ∈ cmds0, c.ready = false) →
      ∀ (p q : Nat) (ea eb : Nat × List Char),
        s.log[p]? = some ea → s.log[q]? = some eb → ea.1 = i → eb.1 = j →
        q < p) := by
  obtain ⟨hF, hS, hN, hL, hO, hC, hX⟩ := reach_inv hreach
  constructor
  · intro hst
    obtain ⟨j2, hbij2, hji2, hrd2⟩ := hS i ci hci hst d hd
    have hjj : j2 = j := by
      rw [hj] at hbij2
      exact (Option.some.inj hbij2).symm
    subst hjj
    exact hrd2
  · intro hnp hnsil h0 p q ea eb hea heb heai hebj
    exact hO hnp h0 i ci hci d hd j hj p q ea eb hea heb heai hebj

/-! ### C9: error propagation -/

/-- C9: in every reachable state, (1) if some worker has returned a
non-`nil` error then the shared derived context is cancelled; (2) the
captured error — the single error `RunContext` returns after blocking
until every worker has terminated — is exactly the first non-`nil` error
among the workers' results in completion order; (3) once the context is
cancelled the supervisory fan-out step is enabled, and the fan-out
(`SendInterrupts`) applies `ShellCmd.Interrupt` to every command of the
group. -/
theorem c9_error_propagation (cmds0 : List ShellCmd) (c0 : Bool) (s : GState)
    (hreach : GReach cmds0 (initState cmds0 c0) s) :
    ((∃ r ∈ s.results, r.2 ≠ none) → s.cancelled = true) ∧
    s.captured = firstErr (s.results.map Prod.snd) ∧
    (s.cancelled = true → GStep cmds0 s { s with fanned := true } ∧
      ∀ i, i < cmds0.length →
        (sendInterrupts cmds0 s)[i]? = some (ShellCmd.Interrupt (s.cmds i) none)) := by
  obtain ⟨hF, hS, hN, hL, hO, hC, hX⟩ := reach_inv hreach
  refine ⟨?_, hC, fun hc => ⟨GStep.fanout s hc, ?_⟩⟩
  · rintro ⟨r, hr, hne⟩
    cases hcc : s.cancelled with
    | true => rfl
    | false => exact absurd (hX hcc r hr) hne
  · intro i hi
    unfold sendInterrupts
    rw [List.getElem?_map]
    rw [List.getElem?_range hi]
    rfl

/-! ### C6: already-cancelled context -/

/-- Invariant of a run started with an already-cancelled context. -/
def Inv6 (s : GState) : Prop :=
  s.cancelled = true ∧
  (∀ i, s.status i = .polling ∨ s.status i = .exitedEarly) ∧
  s.log = [] ∧
  (s.captured = none ∨ s.captured = some ctxCanceled) ∧
  (s.captured = none → ∀ i, s.status i = .polling)

lemma inv6_step {cmds0 : List ShellCmd} {s t : GState} (hstep : GStep cmds0 s t)
    (h : Inv6 s) : Inv6 t := by
  obtain ⟨hc, hstq, hlog, hcap, hnone⟩ := h
  cases hstep with
  | pollStart i hi hst hnc hchk =>
    rw [hc] at hnc
    exact Bool.noConfusion hnc
  | pollStartFail i hi hst hnc hchk e =>
    rw [hc] at hnc
    exact Bool.noConfusion hnc
  | pollDepErr i hi hst hnc b e hchk =>
    rw [hc] at hnc
    exact Bool.noConfusion hnc
  | pollCancel i hi hst hc2 =>
    refine ⟨rfl, ?_, hlog, ?_, ?_⟩
    · intro k
      dsimp only
      by_cases hk : k = i
      · subst hk
        rw [Function.update_same]
        exact Or.inr rfl
      · rw [Function.update_noteq hk]
        exact hstq k
    · dsimp only
      rcases hcap with h1 | h1 <;> rw [h1] <;> exact Or.inr rfl
    · dsimp only
      intro hcontra k
      exfalso
      rcases hcap with h1 | h1 <;> rw [h1] at hcontra <;>
        exact Option.noConfusion hcontra
  | emit i hi hst chunk =>
    exfalso
    rcases hstq i with h | h <;> (rw [hst] at h; exact WStatus.noConfusion h)
  | exitRun i hi hst err =>
    exfalso
    rcases hstq i with h | h <;> (rw [hst] at h; exact WStatus.noConfusion h)
  | fanout hc2 => exact ⟨hc, hstq, hlog, hcap, hnone⟩

lemma inv6_of {cmds0 : List ShellCmd} {s0 s : GState}
    (h : GReach cmds0 s0 s) (h0 : Inv6 s0) : Inv6 s := by
  induction h with
  | refl => exact h0
  | tail hr hst ih => exact inv6_step hst ih

/-- C6 (amended): when the context handed to `RunContext` is already
cancelled, no command is ever started (every worker only polls or exits
early) and nothing is written to the shared output stream; and provided
the group has at least one command, once every worker has returned, the
value `RunContext` returns is `context.Canceled`.  (For the empty group
`eg.Wait()` returns `nil` instead — see the counterexample.) -/
theorem c6_cancelled_context_amended (cmds0 : List ShellCmd) (s : GState)
    (hreach : GReach cmds0 (initState cmds0 true) s) :
    s.log = [] ∧
    (∀ i, s.status i = .polling ∨ s.status i = .exitedEarly) ∧
    (cmds0 ≠ [] → (∀ i, i < cmds0.length → s.status i ≠ .polling) →
      runResult s = some ctxCanceled) := by
  obtain ⟨hc, hstq, hlog, hcap, hnone⟩ := inv6_of hreach
    ⟨rfl, fun i => Or.inl rfl, rfl, Or.inl rfl, fun _ i => rfl⟩
  refine ⟨hlog, hstq, ?_⟩
  intro hne hall
  rcases hcap with h1 | h1
  · exfalso
    have hlen : 0 < cmds0.length := by
      cases cmds0 with
      | nil => exact absurd rfl hne
      | cons a t => simp
    exact hall 0 hlen (hnone h1 0)
  · exact h1

/-- C6 counterexample: for the empty group (`NewGroup()` with no commands)
and an already-cancelled context, all (zero) workers have terminated in
the initial state itself, yet the value returned by `eg.Wait()` is `nil`,
not `context.Canceled` — refuting the claim that `RunContext` returns the
cancellation error whenever the context is already cancelled. -/
theorem c6_counterexample :
    GReach [] (initState [] true) (initState [] true) ∧
    (∀ i, i < ([] : List ShellCmd).length →
      (initState [] true).status i ≠ WStatus.polling) ∧
    runResult (initState [] true) = none ∧
    (none : Option GoErr) ≠ some ctxCanceled := by
  refine ⟨GReach.refl _, ?_, rfl, by simp⟩
  intro i hi
  simp at hi

/-- The one-command group after its worker observed the cancelled context. -/
def c6StateOne : GState :=
  { initState [sampleCmdA] true with
    status := Function.update (initState [sampleCmdA] true).status 0 WStatus.exitedEarly,
    results := (initState [sampleCmdA] true).results ++ [(0, some ctxCanceled)],
    captured := (initState [sampleCmdA] true).captured.orElse (fun _ => some ctxCanceled),
    cancelled := true }

/-- C6 witness: in the one-command group with a cancelled context, after
the worker exits, nothing was written and the returned error is
`context.Canceled`. -/
theorem c6_witness :
    c6StateOne.log = [] ∧ runResult c6StateOne = some ctxCanceled := by
  have hstep : GStep [sampleCmdA] (initState [sampleCmdA] true) c6StateOne :=
    GStep.pollCancel (initState [sampleCmdA] true) 0 (by simp) rfl rfl
  have h := c6_cancelled_context_amended [sampleCmdA] c6StateOne
    (GReach.tail (GReach.refl _) hstep)
  refine ⟨h.1, h.2.2 (by simp) ?_⟩
  intro i hi
  have hi0 : i = 0 := by
    simp at hi
    omega
  subst hi0
  have hs0 : c6StateOne.status 0 = WStatus.exitedEarly := by
    show Function.update (initState [sampleCmdA] true).status 0 WStatus.exitedEarly 0 = _
    rw [Function.update_same]
  rw [hs0]
  intro hcon
  exact WStatus.noConfusion hcon

/-- A command named `"b"` depending on `"a"`. -/
def sampleCmdB : ShellCmd :=
  { name := "b".data, ansiColor := [], silenceOutput := false, ready := false,
    readyPattern := none, dependsOn := ["a".data], process := none }

/-- The two-command group of the C2 witness trace. -/
def c2Group : List ShellCmd := [sampleCmdA, sampleCmdB]

/-- C2 witness trace: `a` starts. -/
def c2S1 : GState :=
  { initState c2Group false with
    status := Function.update (initState c2Group false).status 0 WStatus.running,
    cmds := Function.update (initState c2Group false).cmds 0
      { (initState c2Group false).cmds 0 with process := some { exited := false } } }

/-- C2 witness trace: `a` writes `"x\n"`. -/
def c2S2 : GState :=
  { c2S1 with
    cmds := Function.update c2S1.cmds 0 (ShellCmd.Write (c2S1.cmds 0) "x\n".data).1,
    log := c2S1.log ++ (if (c2S1.cmds 0).silenceOutput then []
      else [(0, (ShellCmd.Write (c2S1.cmds 0) "x\n".data).2.written)]) }

/-- C2 witness trace: `a` exits cleanly and becomes ready. -/
def c2S3 : GState :=
  { c2S2 with
    cmds := Function.update c2S2.cmds 0
      { c2S2.cmds 0 with ready := true, process := some { exited := true } },
    status := Function.update c2S2.status 0 WStatus.doneRun,
    results := c2S2.results ++ [(0, Option.map (wrapErr (c2S2.cmds 0).name) none)],
    captured := c2S2.captured.orElse
      (fun _ => Option.map (wrapErr (c2S2.cmds 0).name) none),
    cancelled := c2S2.cancelled || (none : Option GoErr).isSome }

/-- C2 witness trace: `b`'s poll finds `a` ready and `b` starts. -/
def c2S4 : GState :=
  { c2S3 with
    status := Function.update c2S3.status 1 WStatus.running,
    cmds := Function.update c2S3.cmds 1
      { c2S3.cmds 1 with process := some { exited := false } } }

/-- C2 witness trace: `b` writes `"y\n"`. -/
def c2S5 : GState :=
  { c2S4 with
    cmds := Function.update c2S4.cmds 1 (ShellCmd.Write (c2S4.cmds 1) "y\n".data).1,
    log := c2S4.log ++ (if (c2S4.cmds 1).silenceOutput then []
      else [(1, (ShellCmd.Write (c2S4.cmds 1) "y\n".data).2.written)]) }

lemma c2_reach : GReach c2Group (initState c2Group false) c2S5 :=
  GReach.tail
    (GReach.tail
      (GReach.tail
        (GReach.tail
          (GReach.tail (GReach.refl _)
            (GStep.pollStart _ 0 (by decide) rfl rfl (by decide)))
          (GStep.emit _ 0 (by decide) (by decide) "x\n".data))
        (GStep.exitRun _ 0 (by decide) (by decide) none))
      (GStep.pollStart _ 1 (by decide) (by decide) (by decide) (by decide)))
    (GStep.emit _ 1 (by decide) (by decide) "y\n".data)

/-- The log entry `a` wrote in the C2 witness trace. -/
def c2EntryA : Nat × List Char := (0, (ShellCmd.Write (c2S1.cmds 0) "x\n".data).2.written)

/-- The log entry `b` wrote in the C2 witness trace. -/
def c2EntryB : Nat × List Char := (1, (ShellCmd.Write (c2S4.cmds 1) "y\n".data).2.written)

/-- C2 witness: in the concrete `a ← b` trace, `b` has started so `a` is
ready, and `b`'s log line (position 1) comes after `a`'s (position 0). -/
theorem c2_witness : (c2S5.cmds 0).ready = true ∧ (0 : Nat) < 1 := by
  have hnp : ∀ c ∈ c2Group, c.readyPattern = none := by
    intro c hc
    have hc2 : c = sampleCmdA ∨ c = sampleCmdB ∨ c ∈ ([] : List ShellCmd) := by
      rcases List.mem_cons.mp hc with h | h2
      · exact Or.inl h
      · rcases List.mem_cons.mp h2 with h | h3
        · exact Or.inr (Or.inl h)
        · exact Or.inr (Or.inr h3)
    rcases hc2 with rfl | rfl | h3
    · rfl
    · rfl
    · cases h3
  have hns : ∀ c ∈ c2Group, c.silenceOutput = false := by
    intro c hc
    rcases List.mem_cons.mp hc with rfl | h2
    · rfl
    · rcases List.mem_cons.mp h2 with rfl | h3
      · rfl
      · cases h3
  have h0 : ∀ c ∈ c2Group, c.ready = false := by
    intro c hc
    rcases List.mem_cons.mp hc with rfl | h2
    · rfl
    · rcases List.mem_cons.mp h2 with rfl | h3
      · rfl
      · cases h3
  have h := c2_dependency_ordering c2Group c2S5 c2_reach 1 sampleCmdB rfl
    "a".data (by decide) 0 rfl
  refine ⟨h.1 (Or.inl (by decide)), ?_⟩
  exact h.2 hnp hns h0 1 0 c2EntryB c2EntryA (by decide) (by decide) rfl rfl

/-- C9 witness trace: the single command starts. -/
def c9S1 : GState :=
  { initState [sampleCmdA] false with
    status := Function.update (initState [sampleCmdA] false).status 0 WStatus.running,
    cmds := Function.update (initState [sampleCmdA] false).cmds 0
      { (initState [sampleCmdA] false).cmds 0 with process := some { exited := false } } }

/-- C9 witness trace: the command exits non-zero; the worker's wrapped
error is captured and the context is cancelled. -/
def c9S2 : GState :=
  { c9S1 with
    cmds := Function.update c9S1.cmds 0
      { c9S1.cmds 0 with ready := true, process := some { exited := true } },
    status := Function.update c9S1.status 0 WStatus.doneRun,
    results := c9S1.results ++
      [(0, Option.map (wrapErr (c9S1.cmds 0).name) (some "exit status 1".data))],
    captured := c9S1.captured.orElse
      (fun _ => Option.map (wrapErr (c9S1.cmds 0).name) (some "exit status 1".data)),
    cancelled := c9S1.cancelled || (some "exit status 1".data : Option GoErr).isSome }

/-- C9 witness: after the single worker fails with `exit status 1`, the
context is cancelled, the captured error is the first non-nil result, and
the interrupt fan-out step is enabled. -/
theorem c9_witness :
    c9S2.cancelled = true ∧
    c9S2.captured = firstErr (c9S2.results.map Prod.snd) ∧
    GStep [sampleCmdA] c9S2 { c9S2 with fanned := true } := by
  have hreach : GReach [sampleCmdA] (initState [sampleCmdA] false) c9S2 :=
    GReach.tail
      (GReach.tail (GReach.refl _)
        (GStep.pollStart _ 0 (by decide) rfl rfl (by decide)))
      (GStep.exitRun _ 0 (by decide) (by decide) (some "exit status 1".data))
  have h := c9_error_propagation [sampleCmdA] false c9S2 hreach
  refine ⟨?_, h.2.1, ((h.2.2 ?_).1)⟩
  · refine h.1 ⟨(0, some (wrapErr "a".data "exit status 1".data)), ?_, by decide⟩
    show (0, some (wrapErr "a".data "exit status 1".data)) ∈ c9S2.results
    decide
  · rfl
